import Mathlib

/-!
Verification of the adaptive spinlock core of `src/backend/storage/lmgr/s_lock.c`
(PostgreSQL-derived spinlock used by gpdb).

The portable C code is shallowly embedded as follows.

* `s_lock` loops on `TAS(lock)`.  The behaviour of the external atomic
  test-and-set is modelled by an oracle `tasFails : Nat → Bool` giving, for the
  n-th TAS attempt of the call, whether TAS fails (returns nonzero, lock was
  already held).  `SPIN_DELAY()` is a CPU hint with no observable effect and is
  not modelled.
* `random()` returns a value in `[0, MAX_RANDOM_VALUE]`; the C code uses the
  ratio `random() / MAX_RANDOM_VALUE ∈ [0, 1]` as a rational/real factor.  The
  sequence of draws is modelled by an oracle `rand : Nat → ℚ` giving the ratio
  for the n-th sleep.  The C expression `(int) (cur_delay * r + 0.5)` truncates
  toward zero, which for the nonnegative operands produced by `random()` equals
  the floor; it is embedded as `⌊cur_delay * r + 1/2⌋`.
* The local variables `spins`, `delays` (C ints that start at 0 and only ever
  increment or reset to 0) are embedded as `Nat`; `cur_delay` and the
  process-local `spins_per_delay` are embedded as `Int`.  All the values
  reached in the exercised range are far below 2^31, so machine overflow
  does not arise and the integers are modelled unbounded.
* The while-loop is embedded with explicit fuel (`s_lockLoop`); running out of
  fuel yields `none`.  Termination of the C loop is then the theorem that a
  computable amount of fuel (`needFuel`) always suffices.
* `s_lock_stuck` calls `elog(PANIC, ...)` and never returns; this is embedded
  by the terminal outcome `SLockResult.stuck`, which carries no successor value
  of `spins_per_delay` and is distinct from every `acquired` result.
-/

namespace SLock

/-- MIN_SPINS_PER_DELAY from s_lock.c. -/
def MIN_SPINS_PER_DELAY : Int := 10

/-- MAX_SPINS_PER_DELAY from s_lock.c. -/
def MAX_SPINS_PER_DELAY : Int := 1000

/-- NUM_DELAYS from s_lock.c. -/
def NUM_DELAYS : Nat := 1000

/-- MIN_DELAY_MSEC from s_lock.c. -/
def MIN_DELAY_MSEC : Int := 1

/-- MAX_DELAY_MSEC from s_lock.c. -/
def MAX_DELAY_MSEC : Int := 1000

/-- DEFAULT_SPINS_PER_DELAY (from s_lock.h, the initial value of the static
`spins_per_delay`; the spec fixes it to 100). -/
def DEFAULT_SPINS_PER_DELAY : Int := 100

/-- Modelled from the spec: the state of the external `AtomicFlag` (`slock_t`).
The portable file only declares the flag; the TAS instruction itself is
platform assembly/headers outside this file, specified as an atomic
Free/Locked bit. -/
inductive FlagState where
  | Free : FlagState
  | Locked : FlagState
deriving DecidableEq

/-- Modelled from the spec: the operations offered by the external
`AtomicFlag`: `tryAcquire` (TAS) and `release` (S_UNLOCK). -/
inductive FlagOp where
  | tryAcquire : FlagOp
  | release : FlagOp
deriving DecidableEq

/-- Modelled from the spec: one atomic operation on the flag.  `tryAcquire`
atomically transitions Free→Locked and reports success, fails without a
transition on a Locked flag; `release` transitions to Free.  The `Bool`
component is `true` exactly when a `tryAcquire` returned "acquired". -/
def flagStep : FlagState → FlagOp → FlagState × Bool
  | .Free, .tryAcquire => (.Locked, true)
  | .Locked, .tryAcquire => (.Locked, false)
  | _, .release => (.Free, false)

/-- Modelled from the spec: the number of `tryAcquire` calls reporting success
in a linearized sequence of atomic operations run from a given flag state. -/
def acquireSuccesses : FlagState → List FlagOp → Nat
  | _, [] => 0
  | s, op :: ops =>
    (if (flagStep s op).2 then 1 else 0) + acquireSuccesses (flagStep s op).1 ops

/-- Lines 117-118 of s_lock.c: on the first sleep (`cur_delay == 0`) the delay
starts at MIN_DELAY_MSEC; otherwise the current delay is slept unchanged. -/
def sleptDelay (cur : Int) : Int :=
  if cur = 0 then MIN_DELAY_MSEC else cur

/-- Lines 122-126 of s_lock.c: after sleeping `d` msec, the delay is increased
by a random fraction between 1X and 2X — `d + (int) (d * u + 0.5)` where `u`
is the ratio `random() / MAX_RANDOM_VALUE ∈ [0, 1]` — and wraps back to
MIN_DELAY_MSEC when the result exceeds MAX_DELAY_MSEC. -/
def bumpDelay (d : Int) (u : ℚ) : Int :=
  if MAX_DELAY_MSEC < d + ⌊(d : ℚ) * u + 1/2⌋ then MIN_DELAY_MSEC
  else d + ⌊(d : ℚ) * u + 1/2⌋

/-- One delay block of the `s_lock` loop, lines 117-126 of s_lock.c: the delay
actually passed to `pg_usleep` and the updated `cur_delay`. -/
def backoffSleep (cur : Int) (u : ℚ) : Int × Int :=
  (sleptDelay cur, bumpDelay (sleptDelay cur) u)

/-- The local state of one `s_lock` call: the C locals `spins`, `delays`,
`cur_delay`, plus (for specification purposes) the list of delays slept so far
(most recent first) and the indices `t`, `d` into the TAS and random oracles. -/
structure LoopState where
  spins : Nat
  delays : Nat
  curDelay : Int
  slept : List Int
  t : Nat
  d : Nat
deriving DecidableEq

/-- Result of the `s_lock` loop: the lock was acquired (TAS succeeded), or the
stuck-spinlock path was taken.  The final `LoopState` is carried along. -/
inductive LoopOutcome where
  | acquired : LoopState → LoopOutcome
  | stuck : LoopState → LoopOutcome
deriving DecidableEq

/-- The final loop state of an outcome. -/
def LoopOutcome.state : LoopOutcome → LoopState
  | .acquired st => st
  | .stuck st => st

/-- One iteration of the `while (TAS(lock))` loop of `s_lock` (lines 100-130
of s_lock.c): if TAS succeeds the loop exits with the lock acquired; otherwise
`++spins` is compared with `spins_per_delay`; on reaching it, `++delays` is
compared with NUM_DELAYS (exceeding it takes the fatal `s_lock_stuck` path),
else the process sleeps `cur_delay` msec and `cur_delay` is advanced by
`backoffSleep` and `spins` resets.  Returns either a final outcome or the next
loop state. -/
def s_lockStep (tasFails : Nat → Bool) (rand : Nat → ℚ) (spd : Int)
    (st : LoopState) : Sum LoopOutcome LoopState :=
  if tasFails st.t then
    if spd ≤ ((st.spins + 1 : Nat) : Int) then
      if NUM_DELAYS < st.delays + 1 then
        Sum.inl (.stuck { st with spins := st.spins + 1, delays := st.delays + 1 })
      else
        Sum.inr { spins := 0, delays := st.delays + 1,
                  curDelay := (backoffSleep st.curDelay (rand st.d)).2,
                  slept := (backoffSleep st.curDelay (rand st.d)).1 :: st.slept,
                  t := st.t + 1, d := st.d + 1 }
    else
      Sum.inr { st with spins := st.spins + 1, t := st.t + 1 }
  else
    Sum.inl (.acquired st)

/-- The `while (TAS(lock))` loop of `s_lock`, iterated with explicit fuel. -/
def s_lockLoop (tasFails : Nat → Bool) (rand : Nat → ℚ) (spd : Int) :
    Nat → LoopState → Option LoopOutcome
  | 0, _ => none
  | fuel + 1, st =>
    match s_lockStep tasFails rand spd st with
    | Sum.inl out => some out
    | Sum.inr st1 => s_lockLoop tasFails rand spd fuel st1

/-- The post-success adjustment of the process-local `spins_per_delay`
(lines 147-157 of s_lock.c): if the call never slept (`cur_delay == 0`),
increase by 100 up to MAX_SPINS_PER_DELAY (only when strictly below it);
otherwise decrease by 1 down to MIN_SPINS_PER_DELAY (only when strictly
above it). -/
def updateSpinsPerDelay (curDelay spd : Int) : Int :=
  if curDelay = 0 then
    if spd < MAX_SPINS_PER_DELAY then min (spd + 100) MAX_SPINS_PER_DELAY else spd
  else
    if MIN_SPINS_PER_DELAY < spd then max (spd - 1) MIN_SPINS_PER_DELAY else spd

/-- Observable result of one `s_lock` call: on acquisition, the chronological
list of slept delays, the final `cur_delay` and the new `spins_per_delay`;
on the stuck path, the chronological list of slept delays (the process then
terminates fatally and no `spins_per_delay` update happens). -/
inductive SLockResult where
  | acquired : List Int → Int → Int → SLockResult
  | stuck : List Int → SLockResult
deriving DecidableEq

/-- The slept-delay list of a result. -/
def SLockResult.sleptList : SLockResult → List Int
  | .acquired slept _ _ => slept
  | .stuck slept => slept

/-- The `s_lock` function of s_lock.c, as a function of the TAS oracle, the
random oracle, the loop fuel and the incoming process-local
`spins_per_delay`.  Starts from `spins = delays = cur_delay = 0` and applies
the `spins_per_delay` adjustment on the acquired exit. -/
def s_lock (tasFails : Nat → Bool) (rand : Nat → ℚ) (fuel : Nat) (spd : Int) :
    Option SLockResult :=
  match s_lockLoop tasFails rand spd fuel ⟨0, 0, 0, [], 0, 0⟩ with
  | none => none
  | some (.acquired st) =>
      some (.acquired st.slept.reverse st.curDelay
        (updateSpinsPerDelay st.curDelay spd))
  | some (.stuck st) => some (.stuck st.slept.reverse)

/-- The `set_spins_per_delay` function of s_lock.c: the new value of the
process-local `spins_per_delay` is the given shared value, verbatim. -/
def set_spins_per_delay (shared_spins_per_delay : Int) : Int :=
  shared_spins_per_delay

/-- The `recompute_spins_per_delay` function of s_lock.c:
`(shared_spins_per_delay * 15 + spins_per_delay) / 16` where `/` is C integer
division, which truncates toward zero (`Int.tdiv`). -/
def recompute_spins_per_delay (shared_spins_per_delay spins_per_delay : Int) : Int :=
  Int.tdiv (shared_spins_per_delay * 15 + spins_per_delay) 16

/-- Fuel sufficient for the `s_lock` loop to settle from a state with the
given `spins` and `delays` counters: every remaining delay cycle takes at most
`max spd 1` TAS attempts, and at most `NUM_DELAYS - delays` sleeps remain
before the stuck bound, plus the current partial cycle. -/
def needFuel (spd : Int) (spins delays : Nat) : Nat :=
  (NUM_DELAYS - delays) * (max spd 1).toNat + (max (spd - (spins : Int)) 1).toNat

end SLock

namespace SLock

/-! Generic lemmas about the fuelled loop. -/

theorem s_lockLoop_inv (tf : Nat → Bool) (rand : Nat → ℚ) (spd : Int)
    (P : LoopState → Prop) (Q : LoopOutcome → Prop)
    (hinl : ∀ st out, P st → s_lockStep tf rand spd st = Sum.inl out → Q out)
    (hinr : ∀ st st1, P st → s_lockStep tf rand spd st = Sum.inr st1 → P st1) :
    ∀ fuel st out, P st → s_lockLoop tf rand spd fuel st = some out → Q out := by
  intro fuel
  induction fuel with
  | zero =>
    intro st out _ h
    simp [s_lockLoop] at h
  | succ n ih =>
    intro st out hP h
    simp only [s_lockLoop] at h
    cases hstep : s_lockStep tf rand spd st with
    | inl out1 =>
      rw [hstep] at h
      simp only [Option.some.injEq] at h
      exact h ▸ hinl st out1 hP hstep
    | inr st1 =>
      rw [hstep] at h
      exact ih st1 out (hinr st st1 hP hstep) h

theorem s_lockLoop_term (tf : Nat → Bool) (rand : Nat → ℚ) (spd : Int)
    (mu : LoopState → Nat)
    (hdec : ∀ st st1, s_lockStep tf rand spd st = Sum.inr st1 → mu st1 < mu st) :
    ∀ fuel st, mu st < fuel → (s_lockLoop tf rand spd fuel st).isSome := by
  intro fuel
  induction fuel with
  | zero =>
    intro st h
    exact absurd h (Nat.not_lt_zero _)
  | succ n ih =>
    intro st h
    simp only [s_lockLoop]
    cases hstep : s_lockStep tf rand spd st with
    | inl out => simp
    | inr st1 =>
      exact ih st1 (lt_of_lt_of_le (hdec st st1 hstep) (Nat.lt_succ_iff.mp h))

theorem needFuel_sleep_lt (spd : Int) (spins delays : Nat)
    (hnd : ¬ NUM_DELAYS < delays + 1) :
    needFuel spd 0 (delays + 1) < needFuel spd spins delays := by
  unfold needFuel
  have hmul : (NUM_DELAYS - delays) * (max spd 1).toNat
      = (NUM_DELAYS - (delays + 1)) * (max spd 1).toNat + (max spd 1).toNat := by
    have hd : NUM_DELAYS - delays = (NUM_DELAYS - (delays + 1)) + 1 := by omega
    rw [hd, Nat.succ_mul]
  have h0 : (max (spd - ((0 : Nat) : Int)) 1).toNat = (max spd 1).toNat := by norm_num
  rw [h0, hmul]
  have h1 : 1 ≤ (max (spd - (spins : Int)) 1).toNat := by omega
  omega

theorem needFuel_spin_lt (spd : Int) (spins delays : Nat)
    (htrig : ¬ spd ≤ ((spins + 1 : Nat) : Int)) :
    needFuel spd (spins + 1) delays < needFuel spd spins delays := by
  unfold needFuel
  have h1 : (max (spd - ((spins + 1 : Nat) : Int)) 1).toNat
      < (max (spd - (spins : Int)) 1).toNat := by omega
  omega

theorem s_lockStep_needFuel_lt (tf : Nat → Bool) (rand : Nat → ℚ) (spd : Int)
    (st st1 : LoopState) (h : s_lockStep tf rand spd st = Sum.inr st1) :
    needFuel spd st1.spins st1.delays < needFuel spd st.spins st.delays := by
  unfold s_lockStep at h
  split_ifs at h with h1 h2 h3
  · obtain rfl := Sum.inr.inj h
    exact needFuel_sleep_lt spd st.spins st.delays h3
  · obtain rfl := Sum.inr.inj h
    exact needFuel_spin_lt spd st.spins st.delays h2

/-! Bounds of the backoff sequencer and the delay invariant. -/

theorem sleptDelay_bounds (cur : Int)
    (hcur : cur = 0 ∨ MIN_DELAY_MSEC ≤ cur ∧ cur ≤ MAX_DELAY_MSEC) :
    MIN_DELAY_MSEC ≤ sleptDelay cur ∧ sleptDelay cur ≤ MAX_DELAY_MSEC := by
  unfold sleptDelay
  rcases eq_or_ne cur 0 with h0 | h0
  · simp [h0, MIN_DELAY_MSEC, MAX_DELAY_MSEC]
  · rcases hcur with h | h
    · exact absurd h h0
    · simpa [h0] using h

theorem floor_half_nonneg (d : Int) (u : ℚ) (hd : 0 ≤ d) (hu : 0 ≤ u) :
    0 ≤ ⌊(d : ℚ) * u + 1/2⌋ := by
  apply Int.floor_nonneg.mpr
  have hdQ : (0 : ℚ) ≤ (d : ℚ) := by exact_mod_cast hd
  have hmn := mul_nonneg hdQ hu
  linarith

theorem bumpDelay_bounds (d : Int) (u : ℚ) (hd : MIN_DELAY_MSEC ≤ d) (hu : 0 ≤ u) :
    MIN_DELAY_MSEC ≤ bumpDelay d u ∧ bumpDelay d u ≤ MAX_DELAY_MSEC := by
  have hd0 : (0 : Int) ≤ d := le_trans (by norm_num [MIN_DELAY_MSEC]) hd
  have hfl : 0 ≤ ⌊(d : ℚ) * u + 1/2⌋ := floor_half_nonneg d u hd0 hu
  unfold bumpDelay
  by_cases hc : MAX_DELAY_MSEC < d + ⌊(d : ℚ) * u + 1/2⌋
  · rw [if_pos hc]
    norm_num [MIN_DELAY_MSEC, MAX_DELAY_MSEC]
  · rw [if_neg hc]
    unfold MIN_DELAY_MSEC at hd ⊢
    unfold MAX_DELAY_MSEC at hc ⊢
    omega

theorem backoffSleep_bounds (cur : Int) (u : ℚ) (hu : 0 ≤ u)
    (hcur : cur = 0 ∨ MIN_DELAY_MSEC ≤ cur ∧ cur ≤ MAX_DELAY_MSEC) :
    MIN_DELAY_MSEC ≤ (backoffSleep cur u).1 ∧ (backoffSleep cur u).1 ≤ MAX_DELAY_MSEC ∧
    MIN_DELAY_MSEC ≤ (backoffSleep cur u).2 ∧ (backoffSleep cur u).2 ≤ MAX_DELAY_MSEC := by
  have hs := sleptDelay_bounds cur hcur
  have hb := bumpDelay_bounds (sleptDelay cur) u hs.1 hu
  exact ⟨hs.1, hs.2, hb.1, hb.2⟩

/-- Invariant of the loop state tying `cur_delay` to the sleeps taken so far:
`cur_delay` is 0 exactly when the call has never slept, otherwise it stays in
`[MIN_DELAY_MSEC, MAX_DELAY_MSEC]`; and every delay ever slept lies in
`[MIN_DELAY_MSEC, MAX_DELAY_MSEC]`. -/
def DelayInv (st : LoopState) : Prop :=
  (st.curDelay = 0 ∧ st.slept = [] ∨
    MIN_DELAY_MSEC ≤ st.curDelay ∧ st.curDelay ≤ MAX_DELAY_MSEC ∧ st.slept ≠ []) ∧
  ∀ x ∈ st.slept, MIN_DELAY_MSEC ≤ x ∧ x ≤ MAX_DELAY_MSEC

theorem s_lockStep_DelayInv_inl (tf : Nat → Bool) (rand : Nat → ℚ) (spd : Int)
    (st : LoopState) (out : LoopOutcome) (hP : DelayInv st)
    (h : s_lockStep tf rand spd st = Sum.inl out) : DelayInv out.state := by
  unfold s_lockStep at h
  split_ifs at h
  · obtain rfl := Sum.inl.inj h
    exact hP
  · obtain rfl := Sum.inl.inj h
    exact hP

theorem s_lockStep_DelayInv_inr (tf : Nat → Bool) (rand : Nat → ℚ) (spd : Int)
    (st st1 : LoopState) (hrand : ∀ k, 0 ≤ rand k) (hP : DelayInv st)
    (h : s_lockStep tf rand spd st = Sum.inr st1) : DelayInv st1 := by
  unfold s_lockStep at h
  split_ifs at h with h1 h2 h3
  · obtain rfl := Sum.inr.inj h
    have hb := backoffSleep_bounds st.curDelay (rand st.d) (hrand st.d)
      (by rcases hP.1 with hc | hc
          · exact Or.inl hc.1
          · exact Or.inr ⟨hc.1, hc.2.1⟩)
    refine ⟨Or.inr ⟨hb.2.2.1, hb.2.2.2, by simp⟩, ?_⟩
    intro x hx
    rcases List.mem_cons.mp hx with hx | hx
    · exact hx ▸ ⟨hb.1, hb.2.1⟩
    · exact hP.2 x hx
  · obtain rfl := Sum.inr.inj h
    exact hP

/-! Sleep counting: `delays` always equals the number of sleeps taken, and the
stuck path is reached exactly when `delays` would pass NUM_DELAYS. -/

/-- Invariant: the `delays` counter equals the number of sleeps taken so far
and never passes NUM_DELAYS. -/
def CountInv (st : LoopState) : Prop :=
  st.delays = st.slept.length ∧ st.delays ≤ NUM_DELAYS

theorem s_lockStep_CountInv_inl (tf : Nat → Bool) (rand : Nat → ℚ) (spd : Int)
    (st : LoopState) (out : LoopOutcome) (hP : CountInv st)
    (h : s_lockStep tf rand spd st = Sum.inl out) :
    ∀ st1, out = LoopOutcome.stuck st1 → st1.slept.length = NUM_DELAYS := by
  unfold s_lockStep at h
  split_ifs at h with h1 h2 h3
  · obtain rfl := Sum.inl.inj h
    intro st1 hst1
    obtain rfl := LoopOutcome.stuck.inj hst1
    unfold CountInv at hP
    show st.slept.length = NUM_DELAYS
    omega
  · obtain rfl := Sum.inl.inj h
    intro st1 hst1
    exact absurd hst1 (by simp)

theorem s_lockStep_CountInv_inr (tf : Nat → Bool) (rand : Nat → ℚ) (spd : Int)
    (st st1 : LoopState) (hP : CountInv st)
    (h : s_lockStep tf rand spd st = Sum.inr st1) : CountInv st1 := by
  unfold s_lockStep at h
  split_ifs at h with h1 h2 h3
  · obtain rfl := Sum.inr.inj h
    unfold CountInv at hP ⊢
    simp only [List.length_cons]
    omega
  · obtain rfl := Sum.inr.inj h
    exact hP

theorem s_lockStep_no_acquire (tf : Nat → Bool) (rand : Nat → ℚ) (spd : Int)
    (st : LoopState) (out : LoopOutcome) (htf : ∀ k, tf k = true)
    (h : s_lockStep tf rand spd st = Sum.inl out) :
    ∀ st1, out ≠ LoopOutcome.acquired st1 := by
  unfold s_lockStep at h
  rw [htf st.t] at h
  split_ifs at h with h1 h2 h3
  · obtain rfl := Sum.inl.inj h
    simp
  · exact absurd rfl h1

/-! From the loop to `s_lock` results. -/

theorem s_lock_acquired_elim (tf : Nat → Bool) (rand : Nat → ℚ) (fuel : Nat)
    (spd : Int) (slept : List Int) (cd ns : Int)
    (h : s_lock tf rand fuel spd = some (SLockResult.acquired slept cd ns)) :
    ∃ st, s_lockLoop tf rand spd fuel ⟨0, 0, 0, [], 0, 0⟩ =
        some (LoopOutcome.acquired st) ∧
      slept = st.slept.reverse ∧ cd = st.curDelay ∧
      ns = updateSpinsPerDelay st.curDelay spd := by
  unfold s_lock at h
  cases hl : s_lockLoop tf rand spd fuel ⟨0, 0, 0, [], 0, 0⟩ with
  | none =>
    rw [hl] at h
    simp at h
  | some out =>
    rw [hl] at h
    cases out with
    | acquired st =>
      simp only [Option.some.injEq, SLockResult.acquired.injEq] at h
      exact ⟨st, rfl, h.1.symm, h.2.1.symm, h.2.2.symm⟩
    | stuck st =>
      simp at h

theorem s_lock_stuck_elim (tf : Nat → Bool) (rand : Nat → ℚ) (fuel : Nat)
    (spd : Int) (slept : List Int)
    (h : s_lock tf rand fuel spd = some (SLockResult.stuck slept)) :
    ∃ st, s_lockLoop tf rand spd fuel ⟨0, 0, 0, [], 0, 0⟩ =
        some (LoopOutcome.stuck st) ∧ slept = st.slept.reverse := by
  unfold s_lock at h
  cases hl : s_lockLoop tf rand spd fuel ⟨0, 0, 0, [], 0, 0⟩ with
  | none =>
    rw [hl] at h
    simp at h
  | some out =>
    rw [hl] at h
    cases out with
    | acquired st =>
      simp at h
    | stuck st =>
      simp only [Option.some.injEq, SLockResult.stuck.injEq] at h
      exact ⟨st, rfl, h.symm⟩

theorem s_lock_isSome (tf : Nat → Bool) (rand : Nat → ℚ) (fuel : Nat) (spd : Int)
    (h : (s_lockLoop tf rand spd fuel ⟨0, 0, 0, [], 0, 0⟩).isSome) :
    (s_lock tf rand fuel spd).isSome := by
  unfold s_lock
  cases hl : s_lockLoop tf rand spd fuel ⟨0, 0, 0, [], 0, 0⟩ with
  | none =>
    rw [hl] at h
    simp at h
  | some out =>
    cases out with
    | acquired st => simp
    | stuck st => simp

theorem DelayInv_init : DelayInv ⟨0, 0, 0, [], 0, 0⟩ :=
  ⟨Or.inl ⟨rfl, rfl⟩, by simp⟩

theorem CountInv_init : CountInv ⟨0, 0, 0, [], 0, 0⟩ :=
  ⟨rfl, Nat.zero_le _⟩

theorem loop_DelayInv (tf : Nat → Bool) (rand : Nat → ℚ) (spd : Int) (fuel : Nat)
    (out : LoopOutcome) (hrand : ∀ k, 0 ≤ rand k)
    (h : s_lockLoop tf rand spd fuel ⟨0, 0, 0, [], 0, 0⟩ = some out) :
    DelayInv out.state :=
  s_lockLoop_inv tf rand spd DelayInv (fun o => DelayInv o.state)
    (fun st o hP hs => s_lockStep_DelayInv_inl tf rand spd st o hP hs)
    (fun st st1 hP hs => s_lockStep_DelayInv_inr tf rand spd st st1 hrand hP hs)
    fuel _ out DelayInv_init h

theorem loop_stuck_count (tf : Nat → Bool) (rand : Nat → ℚ) (spd : Int)
    (fuel : Nat) (st1 : LoopState)
    (h : s_lockLoop tf rand spd fuel ⟨0, 0, 0, [], 0, 0⟩ =
      some (LoopOutcome.stuck st1)) :
    st1.slept.length = NUM_DELAYS :=
  s_lockLoop_inv tf rand spd CountInv
    (fun o => ∀ st2, o = LoopOutcome.stuck st2 → st2.slept.length = NUM_DELAYS)
    (s_lockStep_CountInv_inl tf rand spd)
    (s_lockStep_CountInv_inr tf rand spd)
    fuel _ _ CountInv_init h st1 rfl

theorem loop_no_acquire (tf : Nat → Bool) (rand : Nat → ℚ) (spd : Int)
    (htf : ∀ k, tf k = true) (fuel : Nat) (st1 : LoopState)
    (h : s_lockLoop tf rand spd fuel ⟨0, 0, 0, [], 0, 0⟩ =
      some (LoopOutcome.acquired st1)) : False :=
  (s_lockLoop_inv tf rand spd (fun _ => True)
    (fun o => ∀ st2, o ≠ LoopOutcome.acquired st2)
    (fun st o _ hs => s_lockStep_no_acquire tf rand spd st o htf hs)
    (fun _ _ _ _ => trivial)
    fuel _ _ trivial h) st1 rfl

/-! Arithmetic facts about the `spins_per_delay` adjustment. -/

theorem updateSpinsPerDelay_bounds (cd spd : Int)
    (h1 : MIN_SPINS_PER_DELAY ≤ spd) (h2 : spd ≤ MAX_SPINS_PER_DELAY) :
    MIN_SPINS_PER_DELAY ≤ updateSpinsPerDelay cd spd ∧
    updateSpinsPerDelay cd spd ≤ MAX_SPINS_PER_DELAY := by
  unfold updateSpinsPerDelay MIN_SPINS_PER_DELAY MAX_SPINS_PER_DELAY at *
  split_ifs <;> constructor <;> omega

theorem updateSpinsPerDelay_nosleep (spd : Int) (h : spd < MAX_SPINS_PER_DELAY) :
    updateSpinsPerDelay 0 spd = min (spd + 100) MAX_SPINS_PER_DELAY := by
  unfold updateSpinsPerDelay
  rw [if_pos rfl, if_pos h]

theorem updateSpinsPerDelay_nosleep_high (spd : Int)
    (h : ¬ spd < MAX_SPINS_PER_DELAY) :
    updateSpinsPerDelay 0 spd = spd := by
  unfold updateSpinsPerDelay
  rw [if_pos rfl, if_neg h]

theorem updateSpinsPerDelay_slept (cd spd : Int) (hcd : cd ≠ 0)
    (h : MIN_SPINS_PER_DELAY < spd) :
    updateSpinsPerDelay cd spd = max (spd - 1) MIN_SPINS_PER_DELAY := by
  unfold updateSpinsPerDelay
  rw [if_neg hcd, if_pos h]

theorem updateSpinsPerDelay_ne (cd spd : Int)
    (h1 : MIN_SPINS_PER_DELAY < spd) (h2 : spd < MAX_SPINS_PER_DELAY) :
    updateSpinsPerDelay cd spd ≠ spd := by
  unfold updateSpinsPerDelay MIN_SPINS_PER_DELAY MAX_SPINS_PER_DELAY at *
  split_ifs <;> omega

/-! The mutual-exclusion trace property of the modelled AtomicFlag. -/

theorem acquireSuccesses_locked (ops : List FlagOp)
    (hops : ∀ op ∈ ops, op ≠ FlagOp.release) :
    acquireSuccesses FlagState.Locked ops = 0 := by
  induction ops with
  | nil => rfl
  | cons op ops ih =>
    cases op with
    | tryAcquire =>
      simpa [acquireSuccesses, flagStep] using
        ih (fun o ho => hops o (List.mem_cons_of_mem _ ho))
    | release =>
      exact absurd rfl (hops _ (List.mem_cons_self _ _))

theorem bumpDelay_le (d : Int) (u : ℚ) : bumpDelay d u ≤ MAX_DELAY_MSEC := by
  unfold bumpDelay
  split
  · norm_num [MIN_DELAY_MSEC, MAX_DELAY_MSEC]
  · omega

/-! The claims. -/

/-- Claim C1: mutual exclusion — in every linearized sequence of `tryAcquire`
calls on one AtomicFlag containing no `release`, at most one call reports
success, from any starting flag state. -/
theorem c1_mutual_exclusion (s : FlagState) (ops : List FlagOp)
    (hops : ∀ op ∈ ops, op ≠ FlagOp.release) :
    acquireSuccesses s ops ≤ 1 := by
  cases s with
  | Locked =>
    rw [acquireSuccesses_locked ops hops]
    exact Nat.zero_le _
  | Free =>
    cases ops with
    | nil => exact Nat.zero_le _
    | cons op ops =>
      cases op with
      | release => exact absurd rfl (hops _ (List.mem_cons_self _ _))
      | tryAcquire =>
        have h0 := acquireSuccesses_locked ops
          (fun o ho => hops o (List.mem_cons_of_mem _ ho))
        simp [acquireSuccesses, flagStep, h0]

theorem c1_witness :
    acquireSuccesses FlagState.Free [FlagOp.tryAcquire, FlagOp.tryAcquire] ≤ 1 :=
  c1_mutual_exclusion FlagState.Free _ (by decide)

/-- Claim C6: termination — for every TAS behaviour, every random sequence and
every incoming `spins_per_delay`, the `s_lock` loop settles (acquired or
stuck) within a computable fuel bound; it cannot loop forever. -/
theorem c6_termination (tf : Nat → Bool) (rand : Nat → ℚ) (spd : Int) :
    (s_lock tf rand (needFuel spd 0 0 + 1) spd).isSome :=
  s_lock_isSome tf rand _ spd
    (s_lockLoop_term tf rand spd (fun st => needFuel spd st.spins st.delays)
      (s_lockStep_needFuel_lt tf rand spd) _ _ (Nat.lt_succ_self _))

theorem c6_witness :
    (s_lock (fun _ => false) (fun _ => (0 : ℚ)) (needFuel 100 0 0 + 1) 100).isSome :=
  c6_termination (fun _ => false) (fun _ => 0) 100

/-- Claim C2: stuck detection — with a permanently failing TAS, `s_lock`
reaches the fatal stuck outcome with exactly NUM_DELAYS = 1000 sleeps taken
(never fewer), and never returns an acquired result to the caller (the stuck
handler `s_lock_stuck` panics instead of returning). -/
theorem c2_stuck_detection (rand : Nat → ℚ) (spd : Int) :
    (∃ slept, s_lock (fun _ => true) rand (needFuel spd 0 0 + 1) spd =
        some (SLockResult.stuck slept) ∧ slept.length = NUM_DELAYS) ∧
    (∀ fuel slept, s_lock (fun _ => true) rand fuel spd =
        some (SLockResult.stuck slept) → slept.length = NUM_DELAYS) ∧
    (∀ fuel slept cd ns, s_lock (fun _ => true) rand fuel spd ≠
        some (SLockResult.acquired slept cd ns)) := by
  have hcount : ∀ fuel slept, s_lock (fun _ => true) rand fuel spd =
      some (SLockResult.stuck slept) → slept.length = NUM_DELAYS := by
    intro fuel slept h
    obtain ⟨st, hl, hs⟩ := s_lock_stuck_elim _ rand fuel spd slept h
    rw [hs, List.length_reverse]
    exact loop_stuck_count _ rand spd fuel st hl
  have hnoacq : ∀ fuel slept cd ns, s_lock (fun _ => true) rand fuel spd ≠
      some (SLockResult.acquired slept cd ns) := by
    intro fuel slept cd ns h
    obtain ⟨st, hl, _⟩ := s_lock_acquired_elim _ rand fuel spd slept cd ns h
    exact loop_no_acquire _ rand spd (fun _ => rfl) fuel st hl
  refine ⟨?_, hcount, hnoacq⟩
  have hsome := s_lock_isSome (fun _ => true) rand (needFuel spd 0 0 + 1) spd
    (s_lockLoop_term _ rand spd (fun st => needFuel spd st.spins st.delays)
      (s_lockStep_needFuel_lt _ rand spd) _ _ (Nat.lt_succ_self _))
  cases hres : s_lock (fun _ => true) rand (needFuel spd 0 0 + 1) spd with
  | none =>
    rw [hres] at hsome
    simp at hsome
  | some r =>
    cases r with
    | acquired slept cd ns => exact absurd hres (hnoacq _ _ _ _)
    | stuck slept => exact ⟨slept, rfl, hcount _ _ hres⟩

theorem c2_witness :
    s_lock (fun _ => true) (fun _ => (0 : ℚ)) 5 10 ≠
      some (SLockResult.acquired [] 0 110) :=
  (c2_stuck_detection (fun _ => 0) 10).2.2 5 [] 0 110

/-- Claim C3: bounds invariant — an `s_lock` call that returns (acquires)
keeps the process-local `spins_per_delay` inside
[MIN_SPINS_PER_DELAY, MAX_SPINS_PER_DELAY] = [10, 1000] whenever it starts
inside that range, for every TAS/random behaviour (hence for every sequence
of uncontended and contended acquisitions). -/
theorem c3_bounds_invariant (tf : Nat → Bool) (rand : Nat → ℚ) (fuel : Nat)
    (spd : Int) (slept : List Int) (cd ns : Int)
    (h1 : MIN_SPINS_PER_DELAY ≤ spd) (h2 : spd ≤ MAX_SPINS_PER_DELAY)
    (hrun : s_lock tf rand fuel spd = some (SLockResult.acquired slept cd ns)) :
    MIN_SPINS_PER_DELAY ≤ ns ∧ ns ≤ MAX_SPINS_PER_DELAY := by
  obtain ⟨st, _, _, _, hns⟩ := s_lock_acquired_elim tf rand fuel spd slept cd ns hrun
  rw [hns]
  exact updateSpinsPerDelay_bounds st.curDelay spd h1 h2

theorem c3_witness :
    MIN_SPINS_PER_DELAY ≤ (1000 : Int) ∧ (1000 : Int) ≤ MAX_SPINS_PER_DELAY :=
  c3_bounds_invariant (fun _ => false) (fun _ => 0) 1 1000 [] 0 1000
    (by decide) (by decide) (by decide)

/-- Claim C4: asymmetric adjustment — for an estimator value V with
10 < V < 1000, an acquiring `s_lock` call that never slept
(`cur_delay == 0` at loop exit) sets `spins_per_delay` to
`min (V + 100) 1000`, and one that slept at least once sets it to
`max (V - 1) 10`. -/
theorem c4_asymmetric_adjustment (tf : Nat → Bool) (rand : Nat → ℚ) (fuel : Nat)
    (V : Int) (slept : List Int) (cd ns : Int)
    (h1 : MIN_SPINS_PER_DELAY < V) (h2 : V < MAX_SPINS_PER_DELAY)
    (hrand : ∀ k, 0 ≤ rand k)
    (hrun : s_lock tf rand fuel V = some (SLockResult.acquired slept cd ns)) :
    (cd = 0 → ns = min (V + 100) MAX_SPINS_PER_DELAY) ∧
    (slept ≠ [] → ns = max (V - 1) MIN_SPINS_PER_DELAY) := by
  obtain ⟨st, hl, hslept, hcd, hns⟩ :=
    s_lock_acquired_elim tf rand fuel V slept cd ns hrun
  constructor
  · intro h0
    have hc0 : st.curDelay = 0 := hcd.symm.trans h0
    rw [hns, hc0]
    exact updateSpinsPerDelay_nosleep V h2
  · intro hne
    have hinv : DelayInv st :=
      loop_DelayInv tf rand V fuel (LoopOutcome.acquired st) hrand hl
    have hsl : st.slept ≠ [] := by
      intro hnil
      apply hne
      rw [hslept, hnil]
      rfl
    have hcne : st.curDelay ≠ 0 := by
      rcases hinv.1 with hcase | hcase
      · exact absurd hcase.2 hsl
      · intro h0
        rw [h0] at hcase
        norm_num [MIN_DELAY_MSEC] at hcase
    rw [hns]
    exact updateSpinsPerDelay_slept st.curDelay V hcne h1

theorem c4_witness :
    ((0 : Int) = 0 → (200 : Int) = min ((100 : Int) + 100) MAX_SPINS_PER_DELAY) ∧
    (([] : List Int) ≠ [] → (200 : Int) = max ((100 : Int) - 1) MIN_SPINS_PER_DELAY) :=
  c4_asymmetric_adjustment (fun _ => false) (fun _ => 0) 1 100 [] 0 200
    (by decide) (by decide) (fun k => le_refl 0) (by decide)

/-- Claim C5 counterexample: the claim says `recompute_spins_per_delay`
computes a floor division for all integer inputs, but the C `/` operator
truncates toward zero, which differs from the floor at a negative numerator:
with shared = -1, local = 0 the code returns 0 while the floor is -1. -/
theorem c5_counterexample :
    recompute_spins_per_delay (-1) 0 ≠ Int.fdiv ((-1) * 15 + 0) 16 := by
  decide

/-- Claim C5 (amended): for all nonnegative inputs — in particular the whole
operating range of `spins_per_delay` — `recompute_spins_per_delay` returns
`(shared*15 + local) / 16` computed with floor division (C truncation toward
zero agrees with the floor there); it returns 100 for shared = 100,
local = 100 and 938 for shared = 1000, local = 10, confirming truncation
rather than rounding. -/
theorem c5_ema_truncation (shared lcl : Int) (hs : 0 ≤ shared) (hl : 0 ≤ lcl) :
    recompute_spins_per_delay shared lcl = Int.fdiv (shared * 15 + lcl) 16 ∧
    recompute_spins_per_delay 100 100 = 100 ∧
    recompute_spins_per_delay 1000 10 = 938 := by
  refine ⟨?_, by decide, by decide⟩
  unfold recompute_spins_per_delay
  have hnum : (0 : Int) ≤ shared * 15 + lcl := by
    have h15 : (0 : Int) ≤ shared * 15 := by omega
    omega
  rw [Int.tdiv_eq_ediv hnum (by norm_num), Int.fdiv_eq_ediv _ (by norm_num)]

theorem c5_witness :
    recompute_spins_per_delay 1000 10 = Int.fdiv (1000 * 15 + 10) 16 :=
  (c5_ema_truncation 1000 10 (by decide) (by decide)).1

/-- Claim C7: every delay value actually slept by `s_lock` lies in
[MIN_DELAY_MSEC, MAX_DELAY_MSEC] = [1, 1000], and one backoff step never
yields a next delay above MAX_DELAY_MSEC — a step result above the maximum
wraps back to MIN_DELAY_MSEC before the next sleep. -/
theorem c7_slept_delays_bounded (tf : Nat → Bool) (rand : Nat → ℚ) (fuel : Nat)
    (spd : Int) (res : SLockResult) (hrand : ∀ k, 0 ≤ rand k)
    (hrun : s_lock tf rand fuel spd = some res) :
    (∀ x ∈ res.sleptList, MIN_DELAY_MSEC ≤ x ∧ x ≤ MAX_DELAY_MSEC) ∧
    (∀ cur u, bumpDelay cur u ≤ MAX_DELAY_MSEC) := by
  refine ⟨?_, fun cur u => bumpDelay_le cur u⟩
  cases res with
  | acquired slept cd ns =>
    obtain ⟨st, hl, hslept, _, _⟩ :=
      s_lock_acquired_elim tf rand fuel spd slept cd ns hrun
    have hinv : DelayInv st :=
      loop_DelayInv tf rand spd fuel (LoopOutcome.acquired st) hrand hl
    intro x hx
    simp only [SLockResult.sleptList] at hx
    rw [hslept] at hx
    exact hinv.2 x (List.mem_reverse.mp hx)
  | stuck slept =>
    obtain ⟨st, hl, hslept⟩ := s_lock_stuck_elim tf rand fuel spd slept hrun
    have hinv : DelayInv st :=
      loop_DelayInv tf rand spd fuel (LoopOutcome.stuck st) hrand hl
    intro x hx
    simp only [SLockResult.sleptList] at hx
    rw [hslept] at hx
    exact hinv.2 x (List.mem_reverse.mp hx)

theorem c7_witness :
    MIN_DELAY_MSEC ≤ (1 : Int) ∧ (1 : Int) ≤ MAX_DELAY_MSEC :=
  (c7_slept_delays_bounded (fun k => decide (k = 0)) (fun _ => 0) 2 1
    (SLockResult.acquired [1] 1 1) (fun k => le_refl 0)
    (by norm_num [s_lock, s_lockLoop, s_lockStep, backoffSleep, sleptDelay,
      bumpDelay, updateSpinsPerDelay, MIN_DELAY_MSEC, MAX_DELAY_MSEC,
      NUM_DELAYS, MIN_SPINS_PER_DELAY, MAX_SPINS_PER_DELAY])).1
    1 (by decide)

/-- Claim C8: the backoff step — a delay of 0 is slept as
MIN_DELAY_MSEC = 1; from a nonzero delay, the delay is slept unchanged and
the next delay is `cur + round (cur * u)` (the multiplier `1 + u ∈ [1, 2)`
rounded to the nearest integer, half rounding up, exactly the C expression
`cur + (int)(cur * u + 0.5)`), wrapping back to MIN_DELAY_MSEC whenever the
result exceeds MAX_DELAY_MSEC. -/
theorem c8_backoff_step (cur : Int) (u : ℚ) :
    (backoffSleep 0 u).1 = MIN_DELAY_MSEC ∧
    (cur ≠ 0 →
      (backoffSleep cur u).1 = cur ∧
      (backoffSleep cur u).2 =
        if MAX_DELAY_MSEC < cur + round ((cur : ℚ) * u) then MIN_DELAY_MSEC
        else cur + round ((cur : ℚ) * u)) := by
  constructor
  · simp [backoffSleep, sleptDelay]
  · intro h
    constructor
    · simp [backoffSleep, sleptDelay, h]
    · simp only [backoffSleep, sleptDelay, bumpDelay, if_neg h, round_eq]

theorem c8_witness :
    (backoffSleep 5 (1/2)).2 =
      if MAX_DELAY_MSEC < 5 + round ((5 : ℚ) * (1/2)) then MIN_DELAY_MSEC
      else 5 + round ((5 : ℚ) * (1/2)) :=
  ((c8_backoff_step 5 (1/2)).2 (by norm_num)).2

/-- Claim C9: seeding is unclamped — `set_spins_per_delay` stores the given
value verbatim, with no clamping to [MIN_SPINS_PER_DELAY,
MAX_SPINS_PER_DELAY]; and when the stored value exceeds MAX_SPINS_PER_DELAY,
an acquiring `s_lock` call that never slept (exit `cur_delay = 0`) leaves it
unchanged instead of clamping it down. -/
theorem c9_seed_unclamped :
    (∀ v : Int, set_spins_per_delay v = v) ∧
    (∀ v : Int, MAX_SPINS_PER_DELAY < v →
      ∀ tf rand fuel slept ns,
        s_lock tf rand fuel v = some (SLockResult.acquired slept 0 ns) →
        ns = v) := by
  constructor
  · intro v
    rfl
  · intro v hv tf rand fuel slept ns h
    obtain ⟨st, _, _, hcd, hns⟩ :=
      s_lock_acquired_elim tf rand fuel v slept 0 ns h
    rw [hns, ← hcd]
    exact updateSpinsPerDelay_nosleep_high v (by omega)

theorem c9_witness :
    set_spins_per_delay 5000 = 5000 ∧ (5000 : Int) = 5000 :=
  ⟨c9_seed_unclamped.1 5000,
    c9_seed_unclamped.2 5000 (by decide) (fun _ => false) (fun _ => 0) 1 []
      5000 (by decide)⟩

/-- Claim C10: the estimator update fires even on immediate success — if the
very first TAS succeeds, `s_lock` still runs the no-sleep update, raising
`spins_per_delay` from V to `min (V + 100) MAX_SPINS_PER_DELAY` with an empty
sleep list; and no acquiring call leaves `spins_per_delay` unchanged when it
starts strictly inside (MIN_SPINS_PER_DELAY, MAX_SPINS_PER_DELAY). -/
theorem c10_update_always_fires (V : Int)
    (h1 : MIN_SPINS_PER_DELAY < V) (h2 : V < MAX_SPINS_PER_DELAY) :
    (∀ tf rand fuel, tf 0 = false →
      s_lock tf rand (fuel + 1) V =
        some (SLockResult.acquired [] 0 (min (V + 100) MAX_SPINS_PER_DELAY))) ∧
    (∀ tf rand fuel slept cd ns,
      s_lock tf rand fuel V = some (SLockResult.acquired slept cd ns) →
      ns ≠ V) := by
  constructor
  · intro tf rand fuel htf
    have hstep : s_lockStep tf rand V ⟨0, 0, 0, [], 0, 0⟩ =
        Sum.inl (LoopOutcome.acquired ⟨0, 0, 0, [], 0, 0⟩) := by
      simp [s_lockStep, htf]
    have hloop : s_lockLoop tf rand V (fuel + 1) ⟨0, 0, 0, [], 0, 0⟩ =
        some (LoopOutcome.acquired ⟨0, 0, 0, [], 0, 0⟩) := by
      simp only [s_lockLoop]
      rw [hstep]
    unfold s_lock
    rw [hloop]
    show some (SLockResult.acquired [] 0 (updateSpinsPerDelay 0 V)) = _
    rw [updateSpinsPerDelay_nosleep V h2]
  · intro tf rand fuel slept cd ns h
    obtain ⟨st, _, _, _, hns⟩ :=
      s_lock_acquired_elim tf rand fuel V slept cd ns h
    rw [hns]
    exact updateSpinsPerDelay_ne st.curDelay V h1 h2

theorem c10_witness :
    s_lock (fun _ => false) (fun _ => (0 : ℚ)) (0 + 1) 100 =
      some (SLockResult.acquired [] 0 (min ((100 : Int) + 100) MAX_SPINS_PER_DELAY)) :=
  (c10_update_always_fires 100 (by decide) (by decide)).1
    (fun _ => false) (fun _ => 0) 0 rfl
